import Mathlib

/-!
Verification of the odette attendee reconciliation engine, bulk-input line
parser, and batch invitation sender.

The embedding models JavaScript strings as lists of characters (`Str`).
JS `String.prototype.trim` and the regex class `\s` are modelled over the
ASCII whitespace characters (space, tab, LF, CR, VT, FF); `toLowerCase` is
modelled by ASCII lowercasing, which agrees with JS on all inputs used here.

Stateful code (`src/database.ts`, `src/routes/attendees.ts`) is embedded as
explicit state passing over a `DbState` value holding the `attendees` table.
`Date.now()` and `generateToken()` are passed in as explicit `now` / `tok`
arguments.  The SQLite `additional_emails` TEXT column (a JSON string or
NULL) is modelled by `AddlCol`: `nul` for SQL NULL, `arr xs` for the
canonical `JSON.stringify` encoding of an array of strings `xs` (the only
array form the sanctioned write path ever produces), and `badParse` for
stored text on which `JSON.parse` throws or yields a non-array.
-/

namespace Odette

/-- JS strings, modelled character by character. -/
abbrev Str := List Char

/-- ASCII whitespace, modelling the JS `\s` class and `trim()` set. -/
def jsWhitespace (c : Char) : Bool :=
  c = ' ' || c = '\t' || c = '\n' || c = '\r' || c = '\x0b' || c = '\x0c'

/-- JS `String.prototype.trim`. -/
def trimL (s : Str) : Str :=
  ((s.dropWhile jsWhitespace).reverse.dropWhile jsWhitespace).reverse

/-- JS `String.prototype.toLowerCase` (ASCII fragment). -/
def toLowerL (s : Str) : Str :=
  s.map Char.toLower

/-- `e.trim().toLowerCase()` — the email normalization used throughout. -/
def normEmail (s : Str) : Str :=
  toLowerL (trimL s)

/-- The `additional_emails` TEXT column: SQL NULL, a canonically
JSON-encoded array of strings, or unusable stored text (JSON.parse throws
or yields a non-array). -/
inductive AddlCol where
  | nul : AddlCol
  | arr : List Str → AddlCol
  | badParse : AddlCol
deriving DecidableEq

/-- One row of the `attendees` table (schema in `initializeDatabase`). -/
structure Attendee where
  id : Nat
  event_id : Nat
  name : Str
  email : Str
  party_size : Int
  token : Str
  is_sent : Nat
  rsvp : Option Str
  responded_at : Option Int
  last_modified : Option Int
  additional_emails : AddlCol
deriving DecidableEq

/-- The database state: the attendees table plus the next rowid. -/
structure DbState where
  attendees : List Attendee
  nextId : Nat
deriving DecidableEq

/-- The JS `party_size?: number` argument of `upsertAttendee`:
absent (`undefined`), `NaN`, or an integer value. -/
inductive PartyArg where
  | undef : PartyArg
  | nan : PartyArg
  | val : Int → PartyArg
deriving DecidableEq

/-- `party_size === undefined || isNaN(party_size) || party_size < 1 ? 1 :
party_size` (database.ts:203). -/
def finalPartySizeOf : PartyArg → Int
  | .undef => 1
  | .nan => 1
  | .val n => if n < 1 then 1 else n

/-- Set-insertion pass underlying `[...new Set(list)]`: keep each element
whose value has not been seen yet. -/
def dedupSeen (seen : List Str) : List Str → List Str
  | [] => []
  | x :: xs =>
      if seen.contains x then dedupSeen seen xs
      else x :: dedupSeen (x :: seen) xs

/-- `[...new Set(list)]`: deduplication keeping the first occurrence. -/
def dedupFirst (l : List Str) : List Str :=
  dedupSeen [] l

/-- database.ts:209-217: the `additionalEmailsJson` local.  Outer `Option`
is the JS `undefined` (argument absent); inner `Option` is JS `null`
(empty set sentinel) versus the deduplicated list that gets
`JSON.stringify`ed. -/
def computeAddlJson (additionalEmailsArray : Option (List Str))
    (trimmedPrimaryEmail : Str) : Option (Option (List Str)) :=
  additionalEmailsArray.map (fun xs =>
    let uniqueAdditionalEmails :=
      dedupFirst ((xs.map normEmail).filter
        (fun e => e != [] && e != trimmedPrimaryEmail))
    if uniqueAdditionalEmails = [] then none else some uniqueAdditionalEmails)

/-- Encode a computed emails value into the stored column (`JSON.stringify`
for a non-empty list, SQL NULL otherwise). -/
def encodeAddl : Option (List Str) → AddlCol
  | none => .nul
  | some xs => .arr xs

/-- The strict JS comparison `additionalEmailsJson !== existing.additional_emails`
(negated): the stored column text equals the freshly encoded JSON/null. -/
def addlEqJson : AddlCol → Option (List Str) → Bool
  | .nul, none => true
  | .arr xs, some ys => xs == ys
  | _, _ => false

/-- The reconciliation key: `WHERE event_id=? AND email=?` (database.ts:200). -/
def attKey (event_id : Nat) (email : Str) (a : Attendee) : Bool :=
  a.event_id == event_id && a.email == email

/-- Replace the first row matching `p` by its `f`-image (`UPDATE ... WHERE
id=?` with the id taken from the first key-matching row). -/
def updateFirst (p : Attendee → Bool) (f : Attendee → Attendee) :
    List Attendee → List Attendee
  | [] => []
  | a :: as => if p a then f a :: as else a :: updateFirst p f as

/-- The UPDATE branch of `upsertAttendee` (database.ts:219-251): stamp
`last_modified`; overwrite `name` when the provided name is truthy
(non-empty); update `party_size` only when no RSVP exists, a value was
provided, and the clamped value differs; update `additional_emails` only
when an array was provided and its encoding differs from the stored text. -/
def applyUpdate (name : Str) (party_size : PartyArg)
    (addlJson : Option (Option (List Str))) (now : Int) (ex : Attendee) :
    Attendee :=
  { ex with
    last_modified := some now
    name := if name != [] then name else ex.name
    party_size :=
      if ex.rsvp = none then
        if party_size != .undef && ex.party_size != finalPartySizeOf party_size
        then finalPartySizeOf party_size else ex.party_size
      else ex.party_size
    additional_emails :=
      match addlJson with
      | none => ex.additional_emails
      | some v =>
          if addlEqJson ex.additional_emails v then ex.additional_emails
          else encodeAddl v }

/-- `upsertAttendee` (database.ts:192-261), with `Date.now()` and
`generateToken()` passed in as `now` and `freshToken`. -/
def upsertAttendee (st : DbState) (event_id : Nat) (name : Str)
    (primaryEmail : Str) (party_size : PartyArg)
    (additionalEmailsArray : Option (List Str)) (now : Int)
    (freshToken : Str) : DbState :=
  let trimmedPrimaryEmail := normEmail primaryEmail
  let addlJson := computeAddlJson additionalEmailsArray trimmedPrimaryEmail
  match st.attendees.find? (attKey event_id trimmedPrimaryEmail) with
  | some _ =>
      { st with
        attendees := updateFirst (attKey event_id trimmedPrimaryEmail)
          (applyUpdate name party_size addlJson now) st.attendees }
  | none =>
      let newRow : Attendee :=
        { id := st.nextId
          event_id := event_id
          name := name
          email := trimmedPrimaryEmail
          party_size := finalPartySizeOf party_size
          token := freshToken
          is_sent := 0
          rsvp := none
          responded_at := none
          last_modified := some now
          additional_emails := encodeAddl (addlJson.getD none) }
      { attendees := st.attendees ++ [newRow], nextId := st.nextId + 1 }

/-! ### Pure utilities (`src/utils.ts`) -/

/-- Split at the first occurrence of `c`: `some (before, after)` if `c`
occurs, `none` otherwise. -/
def splitAtFirst (c : Char) : Str → Option (Str × Str)
  | [] => none
  | x :: xs =>
      if x = c then some ([], xs)
      else (splitAtFirst c xs).map (fun p => (x :: p.1, p.2))

/-- `email.lastIndexOf('@')` together with `substring`: `some (before, after)`
around the last occurrence of `c`. -/
def splitAtLast (c : Char) (s : Str) : Option (Str × Str) :=
  (splitAtFirst c s.reverse).map (fun p => (p.2.reverse, p.1.reverse))

/-- All characters drawn from the regex class `[^\s@]`. -/
def noWsNoAt (s : Str) : Bool :=
  s.all (fun c => !jsWhitespace c && c != '@')

/-- Full match of the email regex `/^[^\s@]+@[^\s@]+\.[^\s@]+$/`
(utils.ts:198): a non-empty `[^\s@]`-local part, one `@`, and a
`[^\s@]`-domain containing a dot that is neither its first nor its last
character. -/
def isEmailTok (s : Str) : Bool :=
  match splitAtFirst '@' s with
  | none => false
  | some (loc, dom) =>
      loc != [] && noWsNoAt loc && noWsNoAt dom &&
        ((dom.drop 1).dropLast.contains '.')

/-- The character replaced by a space in derived names: the regex class
`[."']` of `deriveNameFromEmail` (utils.ts:148).  The quote characters are
written via their code points. -/
def stripNameChar (c : Char) : Char :=
  if c = '.' ∨ c = Char.ofNat 34 ∨ c = Char.ofNat 39 then ' ' else c

/-- `deriveNameFromEmail` (utils.ts:129-150).  The `parsedAddress` object is
passed as its two optional fields. -/
def deriveNameFromEmail (name : Option Str) (address : Option Str) : Str :=
  if name.getD [] != [] then name.getD []
  else if address.getD [] = [] then []
  else
    let email := address.getD []
    match splitAtLast '@' email with
    | none => email
    | some (pre, _) => trimL (pre.map stripNameChar)

/-- The quote-respecting tokenizer loop of `parseCsvTsvLine`
(utils.ts:168-195): `cur` is `currentColumn`, `q` is
`inQuotes`/`quoteChar`; each finished column is trimmed as it is pushed. -/
def tokenizeCols (delim : Char) : Str → Str → Option Char → List Str
  | [], cur, _ => [trimL cur]
  | ch :: rest, cur, q =>
      match q with
      | none =>
          if ch = Char.ofNat 34 ∨ ch = Char.ofNat 39 then
            tokenizeCols delim rest cur (some ch)
          else if ch = delim then
            trimL cur :: tokenizeCols delim rest [] none
          else
            tokenizeCols delim rest (cur ++ [ch]) none
      | some qc =>
          if ch = qc then tokenizeCols delim rest cur none
          else tokenizeCols delim rest (cur ++ [ch]) (some qc)

/-- Delimiter detection plus tokenization (utils.ts:165-195): tab if the
line contains one, else comma. -/
def lineColumns (line : Str) : List Str :=
  tokenizeCols (if line.contains '\t' then '\t' else ',') line [] none

/-- A column classified as email: `col && emailRegex.test(col)`. -/
def emailCol (col : Str) : Bool :=
  col != [] && isEmailTok col

/-- The result record of `parseCsvTsvLine`. -/
structure ParsedLine where
  email : Str
  name : Str
  party_size : Nat
deriving DecidableEq

/-- `parseCsvTsvLine` (utils.ts:159-230).  The email-detection loop keeps
the first email column and counts all of them; the name loop keeps the
first non-empty non-email column, falling back to the name derived from
the email. -/
def parseCsvTsvLine (line : Str) : Option ParsedLine :=
  if line = [] ∨ trimL line = [] then none
  else
    match (lineColumns line).find? emailCol with
    | none => none
    | some email =>
        some ⟨email,
          (match (lineColumns line).find?
              (fun col => col != [] && !isEmailTok col) with
            | some n => n
            | none => deriveNameFromEmail none (some email)),
          (lineColumns line).countP emailCol⟩

/-! ### Batch invitation sender (`src/routes/attendees.ts`) -/

/-- CC derivation from the stored column (attendees.ts, both send routes):
NULL / empty / unparsable / non-array text yields `[]`; a parsed array is
normalized entrywise and filtered of empties and the primary email. -/
def parseCCEmails (col : AddlCol) (primaryEmail : Str) : List Str :=
  match col with
  | .nul => []
  | .badParse => []
  | .arr xs => (xs.map normEmail).filter (fun e => e != [] && e != primaryEmail)

/-- The per-row effect of `UPDATE attendees SET is_sent=1,
last_modified=?`. -/
def markRow (now : Int) (r : Attendee) : Attendee :=
  { r with is_sent := 1, last_modified := some now }

/-- `UPDATE attendees SET is_sent=1, last_modified=? WHERE id=?`. -/
def markSent (attId : Nat) (now : Int) (rows : List Attendee) : List Attendee :=
  rows.map (fun r => if r.id == attId then markRow now r else r)

/-- `SELECT ... FROM attendees WHERE event_id=? AND is_sent=0`. -/
def pendingOf (st : DbState) (event_id : Nat) : List Attendee :=
  st.attendees.filter (fun a => a.event_id == event_id && a.is_sent == 0)

/-- The mail-transport collaborator `sendInvitation(name, primaryEmail,
ccEmails, token, ...)`, abstracted as a success predicate. -/
abbrev Transport := Str → Str → List Str → Str → Bool

/-- One iteration of the batch-send loop (attendees.ts:343-372): an empty
normalized primary email is skipped without touching the success flag; a
transport failure clears the flag without touching state; a successful
send marks the attendee sent. -/
def sendStep (transport : Transport) (now : Int) (acc : DbState × Bool)
    (a : Attendee) : DbState × Bool :=
  if normEmail a.email = [] then acc
  else if transport a.name (normEmail a.email)
      (parseCCEmails a.additional_emails (normEmail a.email)) a.token then
    ({ acc.1 with attendees := markSent a.id now acc.1.attendees }, acc.2)
  else (acc.1, false)

/-- The send-all-pending route body (attendees.ts:325-379): fold the
per-attendee send over the pending list, starting from `overallSuccess =
true`; the returned Bool is `overallSuccess` (false triggers the
aggregate "Some invitations could not be sent" redirect). -/
def sendAllPending (st : DbState) (event_id : Nat) (transport : Transport)
    (now : Int) : DbState × Bool :=
  (pendingOf st event_id).foldl (sendStep transport now) (st, true)

/-- Whether the loop iteration for `a` leaves `overallSuccess` intact:
skipped attendees (empty normalized email) and successful sends do. -/
def attemptOk (transport : Transport) (a : Attendee) : Bool :=
  normEmail a.email == [] ||
    transport a.name (normEmail a.email)
      (parseCCEmails a.additional_emails (normEmail a.email)) a.token

/-- Whether the loop iteration for `a` performs a successful send (and so
marks `a` sent). -/
def sendSucceeds (transport : Transport) (a : Attendee) : Bool :=
  normEmail a.email != [] &&
    transport a.name (normEmail a.email)
      (parseCCEmails a.additional_emails (normEmail a.email)) a.token

/-! ### Claim-side definitions (stated from the spec wording, for
comparison against the source embedding) -/

/-- The stored additional-emails set as claim C5 words it: each entry
trimmed and lowercased, duplicates removed, entries equal to the
normalized primary email removed — with no removal of entries that are
empty after trimming. -/
def claimAddlSetC5 (xs : List Str) (primaryNorm : Str) : List Str :=
  dedupFirst ((xs.map normEmail).filter (fun e => e != primaryNorm))

/-! ### Concrete fixtures used by witnesses and counterexamples -/

/-- A stored attendee who has not yet responded. -/
def rowAlice : Attendee :=
  { id := 1
    event_id := 1
    name := ("Alice".data)
    email := ("a@b.com".data)
    party_size := 2
    token := ("tok1".data)
    is_sent := 0
    rsvp := none
    responded_at := none
    last_modified := some 5
    additional_emails := .nul }

/-- A stored attendee who has already answered yes. -/
def rowYes : Attendee :=
  { id := 2
    event_id := 1
    name := ("Yara".data)
    email := ("y@b.com".data)
    party_size := 3
    token := ("tok2".data)
    is_sent := 1
    rsvp := some ("yes".data)
    responded_at := some 7
    last_modified := some 7
    additional_emails := .arr [("cc@b.com".data)] }

/-- A two-row attendees table. -/
def stPair : DbState := ⟨[rowAlice, rowYes], 3⟩

/-- Pending attendee with a usable email. -/
def rowBatchA : Attendee :=
  { id := 1
    event_id := 1
    name := ("A".data)
    email := ("a@x.com".data)
    party_size := 1
    token := ("t1".data)
    is_sent := 0
    rsvp := none
    responded_at := none
    last_modified := none
    additional_emails := .nul }

/-- Pending attendee whose primary email is empty. -/
def rowBatchB : Attendee :=
  { id := 2
    event_id := 1
    name := ("B".data)
    email := []
    party_size := 1
    token := ("t2".data)
    is_sent := 0
    rsvp := none
    responded_at := none
    last_modified := none
    additional_emails := .nul }

/-- Pending attendee with a usable email, listed after the empty one. -/
def rowBatchC : Attendee :=
  { id := 3
    event_id := 1
    name := ("C".data)
    email := ("c@x.com".data)
    party_size := 1
    token := ("t3".data)
    is_sent := 0
    rsvp := none
    responded_at := none
    last_modified := none
    additional_emails := .nul }

/-- Three pending attendees of event 1; the second has an empty primary
email. -/
def stBatch : DbState := ⟨[rowBatchA, rowBatchB, rowBatchC], 4⟩

/-- A mail transport that accepts every send. -/
def trueTransport : Transport := fun _ _ _ _ => true

/-! ### Helper lemmas: generic list manipulation -/

theorem find?_append_of_none {α : Type} {p : α → Bool} {l₁ l₂ : List α}
    (h : l₁.find? p = none) : (l₁ ++ l₂).find? p = l₂.find? p := by
  induction l₁ with
  | nil => rfl
  | cons x xs ih =>
      cases hx : p x with
      | true => rw [List.find?_cons_of_pos _ hx] at h; exact absurd h (by simp)
      | false =>
          rw [List.find?_cons_of_neg _ (by simp [hx])] at h
          rw [List.cons_append, List.find?_cons_of_neg _ (by simp [hx])]
          exact ih h

theorem find?_updateFirst {p : Attendee → Bool} {f : Attendee → Attendee}
    {l : List Attendee} {a : Attendee} (h : l.find? p = some a)
    (hf : p (f a) = true) : (updateFirst p f l).find? p = some (f a) := by
  induction l with
  | nil => exact absurd h (by simp)
  | cons x xs ih =>
      by_cases hx : p x = true
      · rw [List.find?_cons_of_pos _ hx] at h
        injection h with h
        subst h
        rw [updateFirst, if_pos hx, List.find?_cons_of_pos _ hf]
      · rw [List.find?_cons_of_neg _ (by simpa using hx)] at h
        rw [updateFirst, if_neg hx,
          List.find?_cons_of_neg _ (by simpa using hx)]
        exact ih h

theorem length_updateFirst (p : Attendee → Bool) (f : Attendee → Attendee)
    (l : List Attendee) : (updateFirst p f l).length = l.length := by
  induction l with
  | nil => rfl
  | cons x xs ih =>
      rw [updateFirst]
      by_cases hx : p x = true
      · rw [if_pos hx, List.length_cons, List.length_cons]
      · rw [if_neg hx, List.length_cons, List.length_cons, ih]

theorem countP_updateFirst {p : Attendee → Bool} {f : Attendee → Attendee}
    (hf : ∀ a, p a = true → p (f a) = true) (l : List Attendee) :
    (updateFirst p f l).countP p = l.countP p := by
  induction l with
  | nil => rfl
  | cons x xs ih =>
      rw [updateFirst]
      by_cases hx : p x = true
      · rw [if_pos hx, List.countP_cons, List.countP_cons, hx, hf x hx]
      · rw [if_neg hx, List.countP_cons, List.countP_cons, ih]

theorem mem_updateFirst_of_neg {p : Attendee → Bool} {f : Attendee → Attendee}
    {l : List Attendee} {r : Attendee} (hr : r ∈ l) (hp : p r = false) :
    r ∈ updateFirst p f l := by
  induction l with
  | nil => cases hr
  | cons x xs ih =>
      rw [updateFirst]
      by_cases hx : p x = true
      · rw [if_pos hx]
        rcases List.mem_cons.mp hr with h | h
        · subst h
          rw [hx] at hp
          cases hp
        · exact List.mem_cons_of_mem _ h
      · rw [if_neg hx]
        rcases List.mem_cons.mp hr with h | h
        · subst h
          exact List.mem_cons_self r (updateFirst p f xs)
        · exact List.mem_cons_of_mem _ (ih h)

theorem mem_dedupSeen {a : Str} {seen l : List Str} :
    a ∈ dedupSeen seen l ↔ a ∈ l ∧ seen.contains a = false := by
  induction l generalizing seen with
  | nil => simp [dedupSeen]
  | cons x xs ih =>
      rw [dedupSeen]
      by_cases hx : seen.contains x = true
      · rw [if_pos hx, ih]
        constructor
        · rintro ⟨hm, hs⟩
          exact ⟨List.mem_cons_of_mem _ hm, hs⟩
        · rintro ⟨hm, hs⟩
          rcases List.mem_cons.mp hm with h | h
          · subst h
            rw [hx] at hs
            exact absurd hs (by simp)
          · exact ⟨h, hs⟩
      · rw [if_neg hx]
        rw [Bool.not_eq_true] at hx
        constructor
        · intro hm
          rcases List.mem_cons.mp hm with h | h
          · subst h
            exact ⟨List.mem_cons_self a xs, hx⟩
          · rcases ih.mp h with ⟨h1, h2⟩
            rw [List.contains_cons] at h2
            rcases Bool.or_eq_false_iff.mp h2 with ⟨_, h3⟩
            exact ⟨List.mem_cons_of_mem _ h1, h3⟩
        · rintro ⟨hm, hs⟩
          by_cases hax : a = x
          · subst hax
            exact List.mem_cons_self a _
          · rcases List.mem_cons.mp hm with h | h
            · exact absurd h hax
            · refine List.mem_cons_of_mem _ (ih.mpr ⟨h, ?_⟩)
              rw [List.contains_cons, hs]
              simp [hax]

theorem nodup_dedupSeen (seen l : List Str) : (dedupSeen seen l).Nodup := by
  induction l generalizing seen with
  | nil => exact List.nodup_nil
  | cons x xs ih =>
      rw [dedupSeen]
      by_cases hx : seen.contains x = true
      · rw [if_pos hx]; exact ih seen
      · rw [if_neg hx]
        refine List.nodup_cons.mpr ⟨fun hm => ?_, ih (x :: seen)⟩
        rcases mem_dedupSeen.mp hm with ⟨_, hs⟩
        rw [List.contains_cons] at hs
        rcases Bool.or_eq_false_iff.mp hs with ⟨h1, _⟩
        exact absurd h1 (by simp)

theorem mem_dedupFirst {l : List Str} {a : Str} : a ∈ dedupFirst l ↔ a ∈ l := by
  rw [dedupFirst, mem_dedupSeen]
  simp

theorem nodup_dedupFirst (l : List Str) : (dedupFirst l).Nodup :=
  nodup_dedupSeen [] l

/-! ### Helper lemmas: the upsert engine -/

theorem attKey_applyUpdate (eid : Nat) (em : Str) (nm : Str) (pa : PartyArg)
    (aj : Option (Option (List Str))) (now : Int) (ex : Attendee) :
    attKey eid em (applyUpdate nm pa aj now ex) = attKey eid em ex := rfl

theorem addlEqJson_eq {col : AddlCol} {v : Option (List Str)}
    (h : addlEqJson col v = true) : col = encodeAddl v := by
  cases col <;> cases v <;> simp_all [addlEqJson, encodeAddl]

/-- The row inserted by the no-existing-row branch of `upsertAttendee`. -/
def insertedRow (st : DbState) (event_id : Nat) (name : Str)
    (primaryEmail : Str) (party_size : PartyArg)
    (additionalEmailsArray : Option (List Str)) (now : Int)
    (freshToken : Str) : Attendee :=
  { id := st.nextId
    event_id := event_id
    name := name
    email := normEmail primaryEmail
    party_size := finalPartySizeOf party_size
    token := freshToken
    is_sent := 0
    rsvp := none
    responded_at := none
    last_modified := some now
    additional_emails :=
      encodeAddl ((computeAddlJson additionalEmailsArray
        (normEmail primaryEmail)).getD none) }

theorem upsert_found {st : DbState} {eid : Nat} {nm em : Str} {pa : PartyArg}
    {addl : Option (List Str)} {now : Int} {tok : Str} {ex : Attendee}
    (h : st.attendees.find? (attKey eid (normEmail em)) = some ex) :
    (upsertAttendee st eid nm em pa addl now tok).attendees.find?
        (attKey eid (normEmail em)) =
      some (applyUpdate nm pa (computeAddlJson addl (normEmail em)) now ex) ∧
    (upsertAttendee st eid nm em pa addl now tok).attendees.length =
      st.attendees.length := by
  have hkey : attKey eid (normEmail em)
      (applyUpdate nm pa (computeAddlJson addl (normEmail em)) now ex) = true := by
    rw [attKey_applyUpdate]
    exact List.find?_some h
  rw [upsertAttendee]
  simp only [h]
  exact ⟨find?_updateFirst h hkey, length_updateFirst _ _ _⟩

theorem upsert_not_found {st : DbState} {eid : Nat} {nm em : Str}
    {pa : PartyArg} {addl : Option (List Str)} {now : Int} {tok : Str}
    (h : st.attendees.find? (attKey eid (normEmail em)) = none) :
    (upsertAttendee st eid nm em pa addl now tok).attendees.find?
        (attKey eid (normEmail em)) =
      some (insertedRow st eid nm em pa addl now tok) ∧
    (upsertAttendee st eid nm em pa addl now tok).attendees.length =
      st.attendees.length + 1 := by
  rw [upsertAttendee]
  simp only [h]
  constructor
  · rw [find?_append_of_none h]
    rw [List.find?_cons_of_pos _ (by simp [attKey, insertedRow])]
    rfl
  · simp

theorem upsert_mem_of_not_key {st : DbState} {eid : Nat} {nm em : Str}
    {pa : PartyArg} {addl : Option (List Str)} {now : Int} {tok : Str}
    {r : Attendee} (hr : r ∈ st.attendees)
    (hp : attKey eid (normEmail em) r = false) :
    r ∈ (upsertAttendee st eid nm em pa addl now tok).attendees := by
  rw [upsertAttendee]
  cases hfind : st.attendees.find? (attKey eid (normEmail em)) with
  | some ex =>
      simp only [hfind]
      exact mem_updateFirst_of_neg hr hp
  | none =>
      simp only [hfind]
      exact List.mem_append_left _ hr

theorem applyUpdate_name (nm : Str) (pa : PartyArg)
    (aj : Option (Option (List Str))) (now : Int) (ex : Attendee) :
    (applyUpdate nm pa aj now ex).name = if nm != [] then nm else ex.name := rfl

theorem applyUpdate_party_size (nm : Str) (pa : PartyArg)
    (aj : Option (Option (List Str))) (now : Int) (ex : Attendee) :
    (applyUpdate nm pa aj now ex).party_size =
      if ex.rsvp = none then
        if pa != .undef && ex.party_size != finalPartySizeOf pa
        then finalPartySizeOf pa else ex.party_size
      else ex.party_size := rfl

theorem applyUpdate_additional_emails (nm : Str) (pa : PartyArg)
    (aj : Option (Option (List Str))) (now : Int) (ex : Attendee) :
    (applyUpdate nm pa aj now ex).additional_emails =
      match aj with
      | none => ex.additional_emails
      | some v =>
          if addlEqJson ex.additional_emails v then ex.additional_emails
          else encodeAddl v := rfl

theorem addlEqJson_encode (v : Option (List Str)) :
    addlEqJson (encodeAddl v) v = true := by
  cases v with
  | none => rfl
  | some xs => simp [encodeAddl, addlEqJson]

theorem encodeAddl_ite (u : List Str) :
    encodeAddl (if u = [] then none else some u) =
      (if u = [] then AddlCol.nul else AddlCol.arr u) := by
  by_cases hu : u = []
  · rw [if_pos hu, if_pos hu]; rfl
  · rw [if_neg hu, if_neg hu]; rfl

/-! ### Claim theorems -/

/-- C7: when `upsertAttendee` inserts a new attendee (no row matches the
reconciliation key), the stored party size equals the provided value if it
is a positive integer, and 1 otherwise — absent (`undefined`), `NaN`, zero
and negative provided values all store 1. -/
theorem upsertAttendee_insert_party_size {st : DbState} {eid : Nat}
    {nm em : Str} {pa : PartyArg} {addl : Option (List Str)} {now : Int}
    {tok : Str}
    (h : st.attendees.find? (attKey eid (normEmail em)) = none) :
    ∃ r, (upsertAttendee st eid nm em pa addl now tok).attendees.find?
        (attKey eid (normEmail em)) = some r ∧
      r.party_size = (match pa with
        | .val n => if 1 ≤ n then n else 1
        | _ => (1 : Int)) := by
  obtain ⟨h1, _⟩ := @upsert_not_found st eid nm em pa addl now tok h
  refine ⟨_, h1, ?_⟩
  show finalPartySizeOf pa = _
  cases pa with
  | undef => rfl
  | nan => rfl
  | val n =>
      simp only [finalPartySizeOf]
      by_cases hn : n < 1
      · rw [if_pos hn, if_neg (by omega)]
      · rw [if_neg hn, if_pos (by omega)]

/-- C7 witness: inserting with provided party size -3 stores 1. -/
theorem upsertAttendee_insert_party_size_witness :
    ∃ r, (upsertAttendee ⟨[], 1⟩ 1 ("Bob".data) ("bob@x.com".data)
        (.val (-3)) none 10 ("t".data)).attendees.find?
        (attKey 1 (normEmail ("bob@x.com".data))) = some r ∧
      r.party_size = 1 :=
  upsertAttendee_insert_party_size (by decide)

/-- C9: the update path of `upsertAttendee` can change only the name,
party-size, additional-emails and last-modified columns: token, sent flag,
RSVP, response timestamp, primary email and event reference of the found
row are unchanged, and no row is added or removed. -/
theorem upsertAttendee_update_frame {st : DbState} {eid : Nat} {nm em : Str}
    {pa : PartyArg} {addl : Option (List Str)} {now : Int} {tok : Str}
    {ex : Attendee}
    (h : st.attendees.find? (attKey eid (normEmail em)) = some ex) :
    ∃ r, (upsertAttendee st eid nm em pa addl now tok).attendees.find?
        (attKey eid (normEmail em)) = some r ∧
      r.token = ex.token ∧ r.is_sent = ex.is_sent ∧ r.rsvp = ex.rsvp ∧
      r.responded_at = ex.responded_at ∧ r.email = ex.email ∧
      r.event_id = ex.event_id ∧
      (upsertAttendee st eid nm em pa addl now tok).attendees.length =
        st.attendees.length := by
  obtain ⟨h1, h2⟩ := @upsert_found st eid nm em pa addl now tok ex h
  exact ⟨_, h1, rfl, rfl, rfl, rfl, rfl, rfl, h2⟩

/-- C9 witness: updating Alice with a new name and party size leaves her
token, sent flag, RSVP state, email and event untouched. -/
theorem upsertAttendee_update_frame_witness :
    ∃ r, (upsertAttendee stPair 1 ("Alicia".data) ("a@b.com".data)
        (.val 4) none 11 ("tok9".data)).attendees.find?
        (attKey 1 (normEmail ("a@b.com".data))) = some r ∧
      r.token = rowAlice.token ∧ r.is_sent = rowAlice.is_sent ∧
      r.rsvp = rowAlice.rsvp ∧ r.responded_at = rowAlice.responded_at ∧
      r.email = rowAlice.email ∧ r.event_id = rowAlice.event_id ∧
      (upsertAttendee stPair 1 ("Alicia".data) ("a@b.com".data)
        (.val 4) none 11 ("tok9".data)).attendees.length =
        stPair.attendees.length :=
  upsertAttendee_update_frame (by decide)

/-- C3: once an attendee's RSVP response is set, every `upsertAttendee`
call on that attendee leaves the stored party size unchanged regardless of
the provided value; when the RSVP response is unset, party size is updated
exactly to the clamped provided value when one was provided and it
differs, and is otherwise untouched.  Calls keyed to a different
(event, email) pair leave the row untouched entirely. -/
theorem upsertAttendee_rsvp_freezes_party_size (st : DbState) (eid : Nat)
    (nm em : Str) (pa : PartyArg) (addl : Option (List Str)) (now : Int)
    (tok : Str) :
    (∀ ex, st.attendees.find? (attKey eid (normEmail em)) = some ex →
      ex.rsvp ≠ none →
      ∃ r, (upsertAttendee st eid nm em pa addl now tok).attendees.find?
          (attKey eid (normEmail em)) = some r ∧
        r.party_size = ex.party_size) ∧
    (∀ ex, st.attendees.find? (attKey eid (normEmail em)) = some ex →
      ex.rsvp = none →
      ∃ r, (upsertAttendee st eid nm em pa addl now tok).attendees.find?
          (attKey eid (normEmail em)) = some r ∧
        r.party_size =
          (if pa ≠ .undef ∧ ex.party_size ≠ finalPartySizeOf pa
           then finalPartySizeOf pa else ex.party_size)) ∧
    (∀ r ∈ st.attendees, attKey eid (normEmail em) r = false →
      r ∈ (upsertAttendee st eid nm em pa addl now tok).attendees) := by
  refine ⟨?_, ?_, fun r hr hp => upsert_mem_of_not_key hr hp⟩
  · intro ex h hr
    obtain ⟨h1, _⟩ := @upsert_found st eid nm em pa addl now tok ex h
    refine ⟨_, h1, ?_⟩
    rw [applyUpdate_party_size, if_neg hr]
  · intro ex h hr
    obtain ⟨h1, _⟩ := @upsert_found st eid nm em pa addl now tok ex h
    refine ⟨_, h1, ?_⟩
    rw [applyUpdate_party_size, if_pos hr]
    by_cases hc : pa ≠ .undef ∧ ex.party_size ≠ finalPartySizeOf pa
    · rw [if_pos hc, if_pos (by simp [bne_iff_ne, hc.1, hc.2])]
    · rw [if_neg hc]
      rw [if_neg ?_]
      intro hb
      simp only [Bool.and_eq_true, bne_iff_ne] at hb
      exact hc hb

/-- C3 witness: Yara answered yes with party size 3; an upsert providing
party size 9 leaves her stored party size at 3, while an upsert on Alice
(no RSVP, stored size 2) providing 9 stores 9. -/
theorem upsertAttendee_rsvp_freezes_party_size_witness :
    (∃ r, (upsertAttendee stPair 1 ("Yara".data) ("y@b.com".data)
        (.val 9) none 11 ("tok9".data)).attendees.find?
        (attKey 1 (normEmail ("y@b.com".data))) = some r ∧
      r.party_size = rowYes.party_size) ∧
    (∃ r, (upsertAttendee stPair 1 ("Alice".data) ("a@b.com".data)
        (.val 9) none 11 ("tok9".data)).attendees.find?
        (attKey 1 (normEmail ("a@b.com".data))) = some r ∧
      r.party_size =
        (if PartyArg.val 9 ≠ PartyArg.undef ∧
            rowAlice.party_size ≠ finalPartySizeOf (PartyArg.val 9)
         then finalPartySizeOf (PartyArg.val 9) else rowAlice.party_size)) :=
  ⟨(upsertAttendee_rsvp_freezes_party_size stPair 1 ("Yara".data)
      ("y@b.com".data) (.val 9) none 11 ("tok9".data)).1 rowYes
      (by decide) (by decide),
   (upsertAttendee_rsvp_freezes_party_size stPair 1 ("Alice".data)
      ("a@b.com".data) (.val 9) none 11 ("tok9".data)).2.1 rowAlice
      (by decide) (by decide)⟩

/-- C2 counterexample: the update path tests the provided name for JS
truthiness, not emptiness after trimming.  A whitespace-only provided name
is truthy, so upserting Alice's row with the name `" "` overwrites the
stored name `"Alice"` with `" "`, while the claim requires it to be
preserved. -/
theorem upsertAttendee_whitespace_name_overwrites :
    trimL (" ".data) = [] ∧
    stPair.attendees.map Attendee.name = [("Alice".data), ("Yara".data)] ∧
    ((upsertAttendee stPair 1 (" ".data) ("a@b.com".data) .undef none 10
        ("u".data)).attendees.map Attendee.name) =
      [(" ".data), ("Yara".data)] ∧
    (" ".data : Str) ≠ ("Alice".data) := by decide

/-- C2 (amended): on the update path the stored name is overwritten with
the provided name exactly as given whenever that name is a non-empty
string — including whitespace-only names — and is preserved unchanged
only when the provided name is the empty string. -/
theorem upsertAttendee_name_update {st : DbState} {eid : Nat} {nm em : Str}
    {pa : PartyArg} {addl : Option (List Str)} {now : Int} {tok : Str}
    {ex : Attendee}
    (h : st.attendees.find? (attKey eid (normEmail em)) = some ex) :
    ∃ r, (upsertAttendee st eid nm em pa addl now tok).attendees.find?
        (attKey eid (normEmail em)) = some r ∧
      r.name = (if nm = [] then ex.name else nm) := by
  obtain ⟨h1, _⟩ := @upsert_found st eid nm em pa addl now tok ex h
  refine ⟨_, h1, ?_⟩
  rw [applyUpdate_name]
  by_cases hnm : nm = []
  · rw [if_pos hnm, if_neg (by simp [hnm])]
  · rw [if_neg hnm, if_pos (bne_iff_ne.mpr hnm)]

/-- C2 witness: upserting Alice with the non-empty name `"Alicia"`
overwrites the stored name. -/
theorem upsertAttendee_name_update_witness :
    ∃ r, (upsertAttendee stPair 1 ("Alicia".data) ("a@b.com".data) .undef
        none 11 ("tok9".data)).attendees.find?
        (attKey 1 (normEmail ("a@b.com".data))) = some r ∧
      r.name = (if ("Alicia".data : Str) = [] then rowAlice.name
                else ("Alicia".data)) :=
  upsertAttendee_name_update (by decide)

/-- Stability of the update row transformation: a second application with
identical arguments changes no visible field, provided the row already
reflects those arguments (which the first call guarantees). -/
theorem applyUpdate_stable (nm : Str) (pa : PartyArg)
    (aj : Option (Option (List Str))) (now2 : Int) (r1 : Attendee)
    (hname : nm ≠ [] → r1.name = nm)
    (hparty : r1.rsvp = none → pa ≠ .undef →
      r1.party_size = finalPartySizeOf pa)
    (haddl : ∀ v, aj = some v → addlEqJson r1.additional_emails v = true) :
    (applyUpdate nm pa aj now2 r1).name = r1.name ∧
    (applyUpdate nm pa aj now2 r1).party_size = r1.party_size ∧
    (applyUpdate nm pa aj now2 r1).additional_emails =
      r1.additional_emails := by
  refine ⟨?_, ?_, ?_⟩
  · rw [applyUpdate_name]
    by_cases hnm : nm = []
    · rw [if_neg (by simp [hnm])]
    · rw [if_pos (bne_iff_ne.mpr hnm), hname hnm]
  · rw [applyUpdate_party_size]
    by_cases hr : r1.rsvp = none
    · rw [if_pos hr]
      by_cases hpa : pa = .undef
      · rw [if_neg (by simp [hpa])]
      · rw [hparty hr hpa]
        rw [if_neg (by simp)]
    · rw [if_neg hr]
  · rw [applyUpdate_additional_emails]
    cases aj with
    | none => rfl
    | some v =>
        show (if addlEqJson r1.additional_emails v = true
          then r1.additional_emails else encodeAddl v) = r1.additional_emails
        rw [if_pos (haddl v rfl)]

/-- C4: calling `upsertAttendee` twice with identical arguments leaves the
stored name, party size and additional emails unchanged after the second
call, while each call stamps `last_modified` with its own `Date.now()`, so
under a strictly advancing clock the second call strictly advances the
stored last-modified timestamp. -/
theorem upsertAttendee_idempotent_touch (st : DbState) (eid : Nat)
    (nm em : Str) (pa : PartyArg) (addl : Option (List Str))
    (now1 now2 : Int) (t1 t2 : Str) (hnow : now1 < now2) :
    ∃ r1 r2,
      (upsertAttendee st eid nm em pa addl now1 t1).attendees.find?
        (attKey eid (normEmail em)) = some r1 ∧
      (upsertAttendee (upsertAttendee st eid nm em pa addl now1 t1) eid nm
          em pa addl now2 t2).attendees.find?
        (attKey eid (normEmail em)) = some r2 ∧
      r2.name = r1.name ∧ r2.party_size = r1.party_size ∧
      r2.additional_emails = r1.additional_emails ∧
      r1.last_modified = some now1 ∧ r2.last_modified = some now2 ∧
      (∀ m1 m2, r1.last_modified = some m1 → r2.last_modified = some m2 →
        m1 < m2) := by
  cases hfind : st.attendees.find? (attKey eid (normEmail em)) with
  | none =>
      obtain ⟨h1, _⟩ := @upsert_not_found st eid nm em pa addl now1 t1 hfind
      obtain ⟨h2, _⟩ := @upsert_found (upsertAttendee st eid nm em pa addl
        now1 t1) eid nm em pa addl now2 t2 _ h1
      have haddl0 : ∀ v, computeAddlJson addl (normEmail em) = some v →
          addlEqJson (insertedRow st eid nm em pa addl now1
            t1).additional_emails v = true := by
        intro v hv
        show addlEqJson (encodeAddl ((computeAddlJson addl
          (normEmail em)).getD none)) v = true
        rw [hv]
        exact addlEqJson_encode v
      rcases applyUpdate_stable nm pa (computeAddlJson addl (normEmail em))
        now2 (insertedRow st eid nm em pa addl now1 t1)
        (fun _ => rfl) (fun _ _ => rfl) haddl0 with ⟨hn, hp, ha⟩
      refine ⟨_, _, h1, h2, hn, hp, ha, rfl, rfl, ?_⟩
      intro m1 m2 hm1 hm2
      injection hm1 with hm1
      injection hm2 with hm2
      omega
  | some ex =>
      obtain ⟨h1, _⟩ := @upsert_found st eid nm em pa addl now1 t1 ex hfind
      obtain ⟨h2, _⟩ := @upsert_found (upsertAttendee st eid nm em pa addl
        now1 t1) eid nm em pa addl now2 t2 _ h1
      have hname : nm ≠ [] →
          (applyUpdate nm pa (computeAddlJson addl (normEmail em)) now1
            ex).name = nm := by
        intro hnm
        rw [applyUpdate_name, if_pos (bne_iff_ne.mpr hnm)]
      have hparty : (applyUpdate nm pa (computeAddlJson addl (normEmail em))
          now1 ex).rsvp = none → pa ≠ .undef →
          (applyUpdate nm pa (computeAddlJson addl (normEmail em)) now1
            ex).party_size = finalPartySizeOf pa := by
        intro hr hpa
        have hrex : ex.rsvp = none := hr
        rw [applyUpdate_party_size, if_pos hrex]
        by_cases hps : ex.party_size = finalPartySizeOf pa
        · rw [if_neg (by simp [hps])]
          exact hps
        · rw [if_pos (by simp [bne_iff_ne, hpa, hps])]
      have haddl : ∀ v, computeAddlJson addl (normEmail em) = some v →
          addlEqJson (applyUpdate nm pa (computeAddlJson addl
            (normEmail em)) now1 ex).additional_emails v = true := by
        intro v hv
        rw [applyUpdate_additional_emails, hv]
        show addlEqJson (if addlEqJson ex.additional_emails v = true
          then ex.additional_emails else encodeAddl v) v = true
        by_cases he : addlEqJson ex.additional_emails v = true
        · rw [if_pos he]
          exact he
        · rw [if_neg he]
          exact addlEqJson_encode v
      rcases applyUpdate_stable nm pa (computeAddlJson addl (normEmail em))
        now2 _ hname hparty haddl with ⟨hn, hp, ha⟩
      refine ⟨_, _, h1, h2, hn, hp, ha, rfl, rfl, ?_⟩
      intro m1 m2 hm1 hm2
      injection hm1 with hm1
      injection hm2 with hm2
      omega

/-- C4 witness: a repeated identical upsert on Alice under clock 11 then
12. -/
theorem upsertAttendee_idempotent_touch_witness :
    ∃ r1 r2,
      (upsertAttendee stPair 1 ("Alice".data) ("a@b.com".data) (.val 2)
        none 11 ("w1".data)).attendees.find?
        (attKey 1 (normEmail ("a@b.com".data))) = some r1 ∧
      (upsertAttendee (upsertAttendee stPair 1 ("Alice".data)
          ("a@b.com".data) (.val 2) none 11 ("w1".data)) 1 ("Alice".data)
          ("a@b.com".data) (.val 2) none 12 ("w2".data)).attendees.find?
        (attKey 1 (normEmail ("a@b.com".data))) = some r2 ∧
      r2.name = r1.name ∧ r2.party_size = r1.party_size ∧
      r2.additional_emails = r1.additional_emails ∧
      r1.last_modified = some 11 ∧ r2.last_modified = some 12 ∧
      (∀ m1 m2, r1.last_modified = some m1 → r2.last_modified = some m2 →
        m1 < m2) :=
  upsertAttendee_idempotent_touch stPair 1 ("Alice".data) ("a@b.com".data)
    (.val 2) none 11 12 ("w1".data) ("w2".data) (by decide)

theorem upsert_countP_not_found {st : DbState} {eid : Nat} {nm em : Str}
    {pa : PartyArg} {addl : Option (List Str)} {now : Int} {tok : Str}
    (h : st.attendees.find? (attKey eid (normEmail em)) = none) :
    (upsertAttendee st eid nm em pa addl now tok).attendees.countP
        (attKey eid (normEmail em)) =
      st.attendees.countP (attKey eid (normEmail em)) + 1 := by
  rw [upsertAttendee]
  simp only [h]
  rw [List.countP_append]
  simp [attKey, List.countP_cons]

theorem upsert_countP_found {st : DbState} {eid : Nat} {nm em : Str}
    {pa : PartyArg} {addl : Option (List Str)} {now : Int} {tok : Str}
    {ex : Attendee}
    (h : st.attendees.find? (attKey eid (normEmail em)) = some ex) :
    (upsertAttendee st eid nm em pa addl now tok).attendees.countP
        (attKey eid (normEmail em)) =
      st.attendees.countP (attKey eid (normEmail em)) := by
  rw [upsertAttendee]
  simp only [h]
  exact countP_updateFirst (fun a ha => by
    rw [attKey_applyUpdate]
    exact ha) st.attendees

/-- C8: the reconciliation key is (event, normalized primary email).  Two
upserts on the same event whose primary emails differ only up to
normalization resolve to one stored row — the second call merges instead
of inserting — and the stored primary email is the trimmed, lowercased
form. -/
theorem upsertAttendee_reconciliation_key (st : DbState) (eid : Nat)
    (nm1 nm2 e1 e2 : Str) (pa1 pa2 : PartyArg) (a1 a2 : Option (List Str))
    (n1 n2 : Int) (t1 t2 : Str)
    (heq : normEmail e1 = normEmail e2)
    (h0 : st.attendees.countP (attKey eid (normEmail e1)) = 0) :
    (upsertAttendee (upsertAttendee st eid nm1 e1 pa1 a1 n1 t1) eid nm2 e2
        pa2 a2 n2 t2).attendees.countP (attKey eid (normEmail e1)) = 1 ∧
    (upsertAttendee (upsertAttendee st eid nm1 e1 pa1 a1 n1 t1) eid nm2 e2
        pa2 a2 n2 t2).attendees.length = st.attendees.length + 1 ∧
    ∃ r, (upsertAttendee (upsertAttendee st eid nm1 e1 pa1 a1 n1 t1) eid
        nm2 e2 pa2 a2 n2 t2).attendees.find?
        (attKey eid (normEmail e1)) = some r ∧
      r.email = normEmail e1 := by
  have hnone : st.attendees.find? (attKey eid (normEmail e1)) = none :=
    List.find?_eq_none.mpr (List.countP_eq_zero.mp h0)
  obtain ⟨h1, hlen1⟩ := @upsert_not_found st eid nm1 e1 pa1 a1 n1 t1 hnone
  have hc1 := @upsert_countP_not_found st eid nm1 e1 pa1 a1 n1 t1 hnone
  rw [heq] at h1
  obtain ⟨h2, hlen2⟩ := @upsert_found (upsertAttendee st eid nm1 e1 pa1 a1
    n1 t1) eid nm2 e2 pa2 a2 n2 t2 _ h1
  have hc2 := @upsert_countP_found (upsertAttendee st eid nm1 e1 pa1 a1
    n1 t1) eid nm2 e2 pa2 a2 n2 t2 _ h1
  refine ⟨?_, ?_, ?_⟩
  · rw [heq, hc2, ← heq, hc1, h0]
  · rw [hlen2, hlen1]
  · rw [heq]
    exact ⟨_, h2, heq ▸ rfl⟩

/-- C8 witness: upserting `" A@B.com "` then `"a@b.com"` into an empty
table yields one row keyed by `"a@b.com"`. -/
theorem upsertAttendee_reconciliation_key_witness :
    (upsertAttendee (upsertAttendee ⟨[], 1⟩ 1 ("Ann".data)
        (" A@B.com ".data) .undef none 10 ("k1".data)) 1 ("Ann".data)
        ("a@b.com".data) .undef none 11 ("k2".data)).attendees.countP
      (attKey 1 (normEmail (" A@B.com ".data))) = 1 ∧
    (upsertAttendee (upsertAttendee ⟨[], 1⟩ 1 ("Ann".data)
        (" A@B.com ".data) .undef none 10 ("k1".data)) 1 ("Ann".data)
        ("a@b.com".data) .undef none 11 ("k2".data)).attendees.length =
      (⟨[], 1⟩ : DbState).attendees.length + 1 ∧
    ∃ r, (upsertAttendee (upsertAttendee ⟨[], 1⟩ 1 ("Ann".data)
        (" A@B.com ".data) .undef none 10 ("k1".data)) 1 ("Ann".data)
        ("a@b.com".data) .undef none 11 ("k2".data)).attendees.find?
        (attKey 1 (normEmail (" A@B.com ".data))) = some r ∧
      r.email = normEmail (" A@B.com ".data) :=
  upsertAttendee_reconciliation_key ⟨[], 1⟩ 1 ("Ann".data) ("Ann".data)
    (" A@B.com ".data) ("a@b.com".data) .undef .undef none none 10 11
    ("k1".data) ("k2".data) (by decide) (by decide)

theorem applyUpdate_addl_some (nm : Str) (pa : PartyArg) (now : Int)
    (ex : Attendee) (v : Option (List Str)) :
    (applyUpdate nm pa (some v) now ex).additional_emails = encodeAddl v := by
  rw [applyUpdate_additional_emails]
  show (if addlEqJson ex.additional_emails v = true then ex.additional_emails
    else encodeAddl v) = encodeAddl v
  by_cases he : addlEqJson ex.additional_emails v = true
  · rw [if_pos he]
    exact addlEqJson_eq he
  · rw [if_neg he]

theorem upsert_addl_provided {st : DbState} {eid : Nat} {nm em : Str}
    {pa : PartyArg} {xs : List Str} {now : Int} {tok : Str} :
    ∃ r, (upsertAttendee st eid nm em pa (some xs) now tok).attendees.find?
        (attKey eid (normEmail em)) = some r ∧
      r.additional_emails =
        encodeAddl ((computeAddlJson (some xs) (normEmail em)).getD none) := by
  cases hfind : st.attendees.find? (attKey eid (normEmail em)) with
  | none =>
      obtain ⟨h1, _⟩ := @upsert_not_found st eid nm em pa (some xs) now tok
        hfind
      exact ⟨_, h1, rfl⟩
  | some ex =>
      obtain ⟨h1, _⟩ := @upsert_found st eid nm em pa (some xs) now tok ex
        hfind
      exact ⟨_, h1, applyUpdate_addl_some nm pa now ex _⟩

/-- C5 counterexample: the code filters out entries that are empty after
trimming (`filter(e => e && ...)`), which the claim's description of the
stored set omits.  For the provided array `[" "]` with primary
`bob@x.com`, the claim's described set is `[""]` — non-empty, so it would
be stored as that list — but the code stores the null sentinel. -/
theorem upsertAttendee_additional_emails_claim_counterexample :
    ((upsertAttendee ⟨[], 1⟩ 1 ("Bob".data) ("bob@x.com".data) (.val 1)
        (some [(" ".data)]) 10 ("t".data)).attendees.map
      Attendee.additional_emails) = [AddlCol.nul] ∧
    claimAddlSetC5 [(" ".data)] (normEmail ("bob@x.com".data)) =
      [([] : Str)] ∧
    AddlCol.nul ≠ AddlCol.arr [([] : Str)] ∧
    ([] : Str) ≠ normEmail ("bob@x.com".data) := by decide

/-- C5 (amended): when an additional-emails array is provided, the stored
set is the provided list with each entry trimmed and lowercased,
duplicates removed, entries that are empty after normalization removed,
and entries equal to the normalized primary email removed; an empty result
is stored as the null sentinel, and an absent argument leaves the stored
value untouched.  `reconcile(event, "Bob", "bob@x.com", 1, ["bob@x.com",
"carol@x.com"])` stores exactly `["carol@x.com"]`. -/
theorem upsertAttendee_additional_emails_update (st : DbState) (eid : Nat)
    (nm em : Str) (pa : PartyArg) (now : Int) (tok : Str) :
    (∀ xs : List Str,
      ∃ r, (upsertAttendee st eid nm em pa (some xs) now tok).attendees.find?
          (attKey eid (normEmail em)) = some r ∧
        ∃ u : List Str,
          r.additional_emails =
            (if u = [] then AddlCol.nul else AddlCol.arr u) ∧
          u.Nodup ∧
          (∀ e : Str, e ∈ u ↔
            (e ∈ xs.map normEmail ∧ e ≠ [] ∧ e ≠ normEmail em))) ∧
    (∀ ex, st.attendees.find? (attKey eid (normEmail em)) = some ex →
      ∃ r, (upsertAttendee st eid nm em pa none now tok).attendees.find?
          (attKey eid (normEmail em)) = some r ∧
        r.additional_emails = ex.additional_emails) ∧
    ((upsertAttendee ⟨[], 1⟩ 1 ("Bob".data) ("bob@x.com".data) (.val 1)
        (some [("bob@x.com".data), ("carol@x.com".data)]) 10
        ("t".data)).attendees.map Attendee.additional_emails) =
      [AddlCol.arr [("carol@x.com".data)]] := by
  refine ⟨?_, ?_, by decide⟩
  · intro xs
    obtain ⟨r, hr, hadd⟩ := @upsert_addl_provided st eid nm em pa xs now tok
    refine ⟨r, hr,
      dedupFirst ((xs.map normEmail).filter
        (fun e => e != [] && e != normEmail em)), ?_, nodup_dedupFirst _, ?_⟩
    · rw [hadd]
      exact encodeAddl_ite _
    · intro e
      rw [mem_dedupFirst, List.mem_filter]
      simp [bne_iff_ne, and_assoc]
  · intro ex h
    obtain ⟨h1, _⟩ := @upsert_found st eid nm em pa none now tok ex h
    exact ⟨_, h1, rfl⟩

/-- C5 witness: providing `["x@y.com"]` on an update of Alice stores the
singleton set; providing nothing leaves Yara's stored CC set untouched. -/
theorem upsertAttendee_additional_emails_update_witness :
    (∃ r, (upsertAttendee stPair 1 ("Alice".data) ("a@b.com".data) .undef
        (some [("x@y.com".data)]) 11 ("w".data)).attendees.find?
        (attKey 1 (normEmail ("a@b.com".data))) = some r ∧
      ∃ u : List Str,
        r.additional_emails =
          (if u = [] then AddlCol.nul else AddlCol.arr u) ∧
        u.Nodup ∧
        (∀ e : Str, e ∈ u ↔
          (e ∈ [("x@y.com".data)].map normEmail ∧ e ≠ [] ∧
            e ≠ normEmail ("a@b.com".data)))) ∧
    (∃ r, (upsertAttendee stPair 1 ("Yara".data) ("y@b.com".data) .undef
        none 11 ("w".data)).attendees.find?
        (attKey 1 (normEmail ("y@b.com".data))) = some r ∧
      r.additional_emails = rowYes.additional_emails) :=
  ⟨(upsertAttendee_additional_emails_update stPair 1 ("Alice".data)
      ("a@b.com".data) .undef 11 ("w".data)).1 [("x@y.com".data)],
   (upsertAttendee_additional_emails_update stPair 1 ("Yara".data)
      ("y@b.com".data) .undef 11 ("w".data)).2.1 rowYes (by decide)⟩

/-! ### Helper lemmas: name derivation and line parsing -/

theorem splitAtFirst_eq_none {c : Char} {l : Str} (h : c ∉ l) :
    splitAtFirst c l = none := by
  induction l with
  | nil => rfl
  | cons x xs ih =>
      have hxc : ¬ x = c := fun hx => h (by rw [← hx]; exact List.mem_cons_self x xs)
      rw [splitAtFirst, if_neg hxc, ih (fun hx => h (List.mem_cons_of_mem x hx))]
      rfl

theorem splitAtFirst_append {c : Char} {l1 l2 : Str} (h : c ∉ l1) :
    splitAtFirst c (l1 ++ c :: l2) = some (l1, l2) := by
  induction l1 with
  | nil => rw [List.nil_append, splitAtFirst, if_pos rfl]
  | cons x xs ih =>
      have hxc : ¬ x = c := fun hx => h (by rw [← hx]; exact List.mem_cons_self x xs)
      rw [List.cons_append, splitAtFirst, if_neg hxc,
        ih (fun hx => h (List.mem_cons_of_mem x hx))]
      rfl

theorem splitAtLast_append {pre suf : Str} (h : '@' ∉ suf) :
    splitAtLast '@' (pre ++ '@' :: suf) = some (pre, suf) := by
  rw [splitAtLast]
  have hrev : (pre ++ '@' :: suf).reverse =
      suf.reverse ++ '@' :: pre.reverse := by
    simp [List.reverse_append]
  rw [hrev, splitAtFirst_append (by simpa using h)]
  simp

theorem splitAtLast_eq_none {c : Char} {s : Str} (h : c ∉ s) :
    splitAtLast c s = none := by
  rw [splitAtLast, splitAtFirst_eq_none (by simpa using h)]
  rfl

/-- C10: deriving a display name from an address with no supplied name:
the portion before the last `@` has periods, double quotes and single
quotes replaced by spaces and is trimmed; an address with no `@` is
returned unchanged. -/
theorem deriveNameFromEmail_spec :
    (∀ pre suf : Str, '@' ∉ suf →
      deriveNameFromEmail none (some (pre ++ '@' :: suf)) =
        trimL (pre.map stripNameChar)) ∧
    (∀ addr : Str, '@' ∉ addr →
      deriveNameFromEmail none (some addr) = addr) ∧
    deriveNameFromEmail none (some ("first.middle.last@example.com".data)) =
      ("first middle last".data) ∧
    deriveNameFromEmail none (some ("\"john.doe\"@example.com".data)) =
      ("john doe".data) := by
  refine ⟨?_, ?_, by decide, by decide⟩
  · intro pre suf h
    rw [deriveNameFromEmail, if_neg (by simp), if_neg (by simp)]
    show (match splitAtLast '@' (pre ++ '@' :: suf) with
      | none => pre ++ '@' :: suf
      | some (p, _) => trimL (p.map stripNameChar)) =
        trimL (pre.map stripNameChar)
    rw [splitAtLast_append h]
  · intro addr h
    rw [deriveNameFromEmail, if_neg (by simp)]
    by_cases ha : addr = []
    · rw [if_pos (by simp [ha])]
      exact ha.symm
    · rw [if_neg (by simp [ha])]
      show (match splitAtLast '@' addr with
        | none => addr
        | some (p, _) => trimL (p.map stripNameChar)) = addr
      rw [splitAtLast_eq_none h]

/-- C10 witness: the general before-the-last-at rule applied at the
example address. -/
theorem deriveNameFromEmail_spec_witness :
    deriveNameFromEmail none
        (some (("first.middle.last".data) ++ '@' :: ("example.com".data))) =
      trimL (("first.middle.last".data).map stripNameChar) :=
  deriveNameFromEmail_spec.1 ("first.middle.last".data)
    ("example.com".data) (by decide)

/-- C6: `parseCsvTsvLine` yields no match exactly when the line is
empty/whitespace-only or no tokenized column passes the email pattern;
otherwise the result is the first email column, the count of email
columns as party size, and the first non-empty non-email column as name
with fallback to the name derived from the email.  The two spec examples
evaluate as claimed. -/
theorem parseCsvTsvLine_spec :
    (∀ line : Str, parseCsvTsvLine line = none ↔
      (trimL line = [] ∨ ∀ col ∈ lineColumns line, emailCol col = false)) ∧
    (∀ line r, parseCsvTsvLine line = some r →
      (lineColumns line).find? emailCol = some r.email ∧
      r.party_size = (lineColumns line).countP emailCol ∧
      r.name = (match (lineColumns line).find?
          (fun col => col != [] && !isEmailTok col) with
        | some n => n
        | none => deriveNameFromEmail none (some r.email))) ∧
    parseCsvTsvLine ("Smith Family,john@example.com,jane@example.com".data) =
      some ⟨("john@example.com".data), ("Smith Family".data), 2⟩ ∧
    parseCsvTsvLine ("John Doe,123 Main St,555-1234".data) = none := by
  refine ⟨?_, ?_, by decide, by decide⟩
  · intro line
    rw [parseCsvTsvLine]
    by_cases h0 : line = [] ∨ trimL line = []
    · rw [if_pos h0]
      have htr : trimL line = [] := by
        rcases h0 with h | h
        · rw [h]; rfl
        · exact h
      exact iff_of_true rfl (Or.inl htr)
    · rw [if_neg h0]
      have htr : ¬ trimL line = [] := fun h => h0 (Or.inr h)
      cases hf : (lineColumns line).find? emailCol with
      | none =>
          refine iff_of_true rfl (Or.inr ?_)
          intro col hc
          exact Bool.eq_false_iff.mpr (List.find?_eq_none.mp hf col hc)
      | some e =>
          refine iff_of_false (by simp) ?_
          rintro (h | h)
          · exact htr h
          · have he : emailCol e = true := List.find?_some hf
            have hm : e ∈ lineColumns line := List.mem_of_find?_eq_some hf
            rw [h e hm] at he
            exact absurd he (by simp)
  · intro line r hr
    rw [parseCsvTsvLine] at hr
    by_cases h0 : line = [] ∨ trimL line = []
    · rw [if_pos h0] at hr
      exact absurd hr (by simp)
    · rw [if_neg h0] at hr
      cases hf : (lineColumns line).find? emailCol with
      | none =>
          rw [hf] at hr
          exact absurd hr (by simp)
      | some e =>
          rw [hf] at hr
          injection hr with hr
          subst hr
          exact ⟨rfl, rfl, rfl⟩

/-- C6 witness: the component characterization applied to the Smith
Family example line. -/
theorem parseCsvTsvLine_spec_witness :
    (lineColumns ("Smith Family,john@example.com,jane@example.com".data)).find?
        emailCol = some ("john@example.com".data) :=
  (parseCsvTsvLine_spec.2.1 ("Smith Family,john@example.com,jane@example.com".data)
    ⟨("john@example.com".data), ("Smith Family".data), 2⟩ (by decide)).1

/-! ### Helper lemmas: the batch invitation sender -/

theorem markRow_id (now : Int) (r : Attendee) : (markRow now r).id = r.id :=
  rfl

theorem markRow_markRow (now : Int) (r : Attendee) :
    markRow now (markRow now r) = markRow now r := rfl

theorem sendStep_snd (transport : Transport) (now : Int)
    (acc : DbState × Bool) (a : Attendee) :
    (sendStep transport now acc a).2 = (acc.2 && attemptOk transport a) := by
  rw [sendStep, attemptOk]
  by_cases h : normEmail a.email = []
  · rw [if_pos h, (by simp [h] : (normEmail a.email == ([] : Str)) = true),
      Bool.true_or, Bool.and_true]
  · rw [if_neg h, (by simp [h] : (normEmail a.email == ([] : Str)) = false),
      Bool.false_or]
    cases ht : transport a.name (normEmail a.email)
      (parseCCEmails a.additional_emails (normEmail a.email)) a.token with
    | true =>
        rw [if_pos rfl, Bool.and_true]
    | false =>
        rw [if_neg (by simp), Bool.and_false]

theorem sendStep_fst (transport : Transport) (now : Int)
    (acc : DbState × Bool) (a : Attendee) :
    (sendStep transport now acc a).1.attendees =
      (if sendSucceeds transport a = true
       then markSent a.id now acc.1.attendees
       else acc.1.attendees) := by
  rw [sendStep, sendSucceeds]
  by_cases h : normEmail a.email = []
  · rw [if_pos h, if_neg (by simp [h])]
  · rw [if_neg h]
    cases ht : transport a.name (normEmail a.email)
      (parseCCEmails a.additional_emails (normEmail a.email)) a.token with
    | true =>
        rw [if_pos rfl, if_pos (by simp [h])]
    | false =>
        rw [if_neg (by simp), if_neg (by simp)]

theorem foldl_sendStep_snd (transport : Transport) (now : Int)
    (l : List Attendee) : ∀ acc : DbState × Bool,
    (l.foldl (sendStep transport now) acc).2 =
      (acc.2 && l.all (attemptOk transport)) := by
  induction l with
  | nil => intro acc; simp
  | cons a l ih =>
      intro acc
      rw [List.foldl_cons, ih, sendStep_snd, List.all_cons, Bool.and_assoc]

theorem foldl_sendStep_fst (transport : Transport) (now : Int)
    (l : List Attendee) : ∀ acc : DbState × Bool,
    (l.foldl (sendStep transport now) acc).1.attendees =
      l.foldl (fun rows a => if sendSucceeds transport a = true
        then markSent a.id now rows else rows) acc.1.attendees := by
  induction l with
  | nil => intro acc; rfl
  | cons a l ih =>
      intro acc
      rw [List.foldl_cons, List.foldl_cons, ih]
      congr 1
      exact sendStep_fst transport now acc a

theorem foldl_markRow_single (now : Int) (g : Attendee → Bool)
    (l : List Attendee) : ∀ r : Attendee,
    l.foldl (fun r' a => if (g a && (r'.id == a.id)) = true
      then markRow now r' else r') r =
      (if l.any (fun a => g a && (r.id == a.id)) = true
       then markRow now r else r) := by
  induction l with
  | nil => intro r; simp
  | cons a l ih =>
      intro r
      rw [List.foldl_cons, List.any_cons]
      by_cases hc : (g a && (r.id == a.id)) = true
      · rw [if_pos hc, ih, markRow_markRow, hc, Bool.true_or, if_pos rfl,
          ite_self]
      · rw [if_neg hc, ih, Bool.eq_false_iff.mpr hc, Bool.false_or]

theorem foldl_markSent_distrib (now : Int) (g : Attendee → Bool)
    (l : List Attendee) : ∀ rows : List Attendee,
    l.foldl (fun rows a => if g a = true
      then markSent a.id now rows else rows) rows =
      rows.map (fun r => l.foldl (fun r' a =>
        if (g a && (r'.id == a.id)) = true then markRow now r' else r') r) := by
  induction l with
  | nil =>
      intro rows
      simp
  | cons a l ih =>
      intro rows
      rw [List.foldl_cons]
      simp only [List.foldl_cons]
      by_cases hga : g a = true
      · rw [if_pos hga, ih, markSent, List.map_map]
        congr 1
        funext r
        simp only [Function.comp]
        rw [hga, Bool.true_and]
      · rw [if_neg hga, ih]
        congr 1
        funext r
        have hf : g a = false := Bool.eq_false_iff.mpr hga
        simp [hf]

/-- C1 counterexample: three pending attendees where the second has an
empty primary email, with a mail transport that accepts every send.  The
first and third are sent and marked and the second stays unsent — but
`overallSuccess` stays `true`, so the route redirects without the
aggregate "Some invitations could not be sent" error.  The claim requires
the batch to report an aggregate failure in exactly this scenario. -/
theorem sendAllPending_missing_email_no_aggregate_failure :
    (sendAllPending stBatch 1 trueTransport 100).2 = true ∧
    (sendAllPending stBatch 1 trueTransport 100).1.attendees.map
      Attendee.is_sent = [1, 0, 1] ∧
    normEmail rowBatchB.email = [] ∧
    stBatch.attendees.map Attendee.is_sent = [0, 0, 0] := by decide

/-- C1 (amended): per-attendee failures are isolated — the loop continues
and every pending attendee with a non-empty normalized email whose
transport send succeeds is marked sent, all others are left untouched —
but the aggregate "some sends failed" signal is reported exactly when
some attempted transport send failed: an attendee with a missing primary
email is skipped without raising the aggregate signal, and malformed
additional-emails data merely yields an empty CC list for an otherwise
normal send. -/
theorem sendAllPending_failure_isolation (st : DbState) (eid : Nat)
    (transport : Transport) (now : Int)
    (hids : (st.attendees.map Attendee.id).Nodup) :
    ((sendAllPending st eid transport now).2 = false ↔
      ∃ a ∈ pendingOf st eid, normEmail a.email ≠ [] ∧
        transport a.name (normEmail a.email)
          (parseCCEmails a.additional_emails (normEmail a.email)) a.token =
          false) ∧
    (sendAllPending st eid transport now).1.attendees =
      st.attendees.map (fun r =>
        if ((r.event_id == eid && r.is_sent == 0) &&
            sendSucceeds transport r) = true
        then markRow now r else r) := by
  constructor
  · have h1 : (sendAllPending st eid transport now).2 =
        (pendingOf st eid).all (attemptOk transport) := by
      rw [sendAllPending, foldl_sendStep_snd, Bool.true_and]
    rw [h1]
    simp only [List.all_eq_false, attemptOk, Bool.or_eq_true, beq_iff_eq,
      not_or, Bool.not_eq_true]
  · rw [sendAllPending, foldl_sendStep_fst, foldl_markSent_distrib]
    refine List.map_congr_left (fun r hr => ?_)
    rw [foldl_markRow_single]
    have hiff : (pendingOf st eid).any
        (fun a => sendSucceeds transport a && (r.id == a.id)) = true ↔
        (((r.event_id == eid && r.is_sent == 0) &&
          sendSucceeds transport r) = true) := by
      rw [List.any_eq_true]
      constructor
      · rintro ⟨a, ha, hpa⟩
        simp only [Bool.and_eq_true, beq_iff_eq] at hpa
        have hmem : a ∈ st.attendees := (List.mem_filter.mp ha).1
        have hpend : (a.event_id == eid && a.is_sent == 0) = true :=
          (List.mem_filter.mp ha).2
        have hra : r = a :=
          List.inj_on_of_nodup_map hids hr hmem hpa.2
        subst hra
        simp only [Bool.and_eq_true] at hpend ⊢
        exact ⟨hpend, hpa.1⟩
      · intro hp
        simp only [Bool.and_eq_true] at hp
        refine ⟨r, List.mem_filter.mpr ⟨hr, ?_⟩, ?_⟩
        · simp only [Bool.and_eq_true]
          exact hp.1
        · simp [hp.2]
    rw [Bool.coe_iff_coe.mp hiff]

/-- C1 witness: the marking characterization applied to the
three-attendee fixture under an always-accepting transport. -/
theorem sendAllPending_failure_isolation_witness :
    (sendAllPending stBatch 1 trueTransport 100).1.attendees =
      stBatch.attendees.map (fun r =>
        if ((r.event_id == 1 && r.is_sent == 0) &&
            sendSucceeds trueTransport r) = true
        then markRow 100 r else r) :=
  (sendAllPending_failure_isolation stBatch 1 trueTransport 100
    (by decide)).2

end Odette
